import Mathlib

/-!
Verification of the hierarchical-deterministic key-derivation engine and the
keybase of the go-crypto repository, as a shallow embedding in Lean.

Bytes are modelled as `List Nat` (each entry a byte value), Go strings as
`List Char`.  The external capabilities consumed by the code are parameters:
`hmac` stands for HMAC-SHA512 (the contract that it returns 64 bytes appears
as a hypothesis where needed), `pubOf` for compressed secp256k1 public-key
derivation from a 32-byte secret.  The passphrase armor layer and the
ordered byte-keyed store are modelled from their documented contracts, since
their implementations are external to the files under verification.
-/

namespace GoCrypto

abbrev Bytes := List Nat

abbrev GoStr := List Char

abbrev HmacFn := Bytes → Bytes → Bytes

abbrev PubFn := Bytes → Bytes

/-- Shorthand turning a Lean string literal into the `List Char` model of a
Go string. -/
def gs (s : String) : GoStr := s.data

/-- The apostrophe character (code 39) that marks a hardened path segment. -/
def aposC : Char := Char.ofNat 39

/-- Big-endian byte-sequence value, as in Go `big.Int.SetBytes`. -/
def fromBytesBE (l : Bytes) : Nat := l.foldl (fun acc b => acc * 256 + b) 0

/-- Minimal big-endian byte encoding, fuel-driven; mirrors `big.Int.Bytes`
(which returns no leading zero bytes, and the empty slice for zero). -/
def natToBytesBEAux (fuel : Nat) (n : Nat) : Bytes :=
  match fuel with
  | 0 => []
  | fuel' + 1 => if n = 0 then [] else natToBytesBEAux fuel' (n / 256) ++ [n % 256]

/-- Minimal big-endian byte encoding of a natural number (`big.Int.Bytes`). -/
def natToBytesBE (n : Nat) : Bytes := natToBytesBEAux n n

/-- Canonical fixed-width big-endian encoding: `beBytesN k n` is the `k`-byte
big-endian encoding of `n % 256 ^ k`.  Used on the specification side. -/
def beBytesN : Nat → Nat → Bytes
  | 0, _ => []
  | k + 1, n => n / 256 ^ k % 256 :: beBytesN k n

/-- The secp256k1 curve order `btcec.S256().N`. -/
def secpN : Nat :=
  0xfffffffffffffffffffffffffffffffebaaedce6af48a03bbfd25e8cd0364141

/-- Go `copy` of a byte slice into a zero-initialised `[32]byte` array. -/
def copyTo32 (src : Bytes) : Bytes :=
  src.take 32 ++ List.replicate (32 - (src.take 32).length) 0

/-- `i64` from hdpath.go: the two halves of the SHA512 HMAC of key and data,
each copied into a `[32]byte` array. -/
def i64 (hmac : HmacFn) (key data : Bytes) : Bytes × Bytes :=
  let I := hmac key data
  (copyTo32 (I.take 32), copyTo32 (I.drop 32))

/-- `uint32ToBytes` from hdpath.go: big-endian 4-byte encoding
(`binary.BigEndian.PutUint32`). -/
def uint32ToBytes (i : Nat) : Bytes :=
  [i / 2 ^ 24 % 256, i / 2 ^ 16 % 256, i / 2 ^ 8 % 256, i % 256]

/-- `addScalars` from hdpath.go: modular big-endian addition.  The minimal
big-endian bytes of the sum modulo the curve order are copied into a
zero-initialised `[32]byte` array starting at offset `32 - len(x)`. -/
def addScalars (a b : Bytes) : Bytes :=
  let x := natToBytesBE ((fromBytesBE a + fromBytesBE b) % secpN)
  List.replicate (32 - x.length) 0 ++ x

/-- The HMAC key `[]byte("Bitcoin seed")` used for the master derivation. -/
def bitcoinSeedBytes : Bytes := (gs "Bitcoin seed").map Char.toNat

/-- `ComputeMastersFromSeed` from hdpath.go. -/
def ComputeMastersFromSeed (hmac : HmacFn) (seed : Bytes) : Bytes × Bytes :=
  i64 hmac bitcoinSeedBytes seed

/-- `DerivePrivateKey` from hdpath.go: one child-derivation step.  In the
hardened (`prime`) case the index is ORed with `0x80000000` and the HMAC data
starts with a zero byte followed by the parent secret; otherwise it starts
with the compressed public key of the parent secret. -/
def DerivePrivateKey (hmac : HmacFn) (pubOf : PubFn) (privKeyBytes chainCode : Bytes)
    (index : Nat) (prime : Bool) : Bytes × Bytes :=
  let index2 := if prime then index ||| 0x80000000 else index
  let data0 := if prime then 0 :: privKeyBytes else pubOf privKeyBytes
  let data := data0 ++ uint32ToBytes index2
  let r := i64 hmac chainCode data
  (addScalars privKeyBytes r.1, r.2)

/-- Go `strings.Split` on the slash character (the separator is a single
character here, so the general contract collapses to this recursion). -/
def splitSlashGo : GoStr → GoStr → List GoStr
  | [], acc => [acc.reverse]
  | c :: rest, acc =>
    if c = '/' then acc.reverse :: splitSlashGo rest []
    else splitSlashGo rest (c :: acc)

/-- `strings.Split(path, "/")`. -/
def splitSlash (s : GoStr) : List GoStr := splitSlashGo s []

/-- Digit run of `strconv.Atoi`: fails unless the (nonempty) input is all
decimal digits. -/
def parseDigitsGo : GoStr → Nat → Option Nat
  | [], acc => some acc
  | c :: rest, acc =>
    if c.isDigit then parseDigitsGo rest (acc * 10 + (c.toNat - 48)) else none

/-- All-digit parse; `none` on the empty string. -/
def parseDigits (s : GoStr) : Option Nat :=
  if s.isEmpty then none else parseDigitsGo s 0

/-- `strconv.Atoi` on a 64-bit platform: optional sign, decimal digits,
error outside the int64 range. -/
def atoi (s : GoStr) : Option Int :=
  match s with
  | [] => none
  | c :: rest =>
    let digits := if c = '-' ∨ c = '+' then rest else s
    match parseDigits digits with
    | none => none
    | some n =>
      let v : Int := if c = '-' then -(n : Int) else (n : Int)
      if v < -(2 ^ 63) ∨ (2 ^ 63 : Int) - 1 < v then none else some v

/-- The apostrophe handling of a path segment: `prime` is set when the last
character is an apostrophe, which is then stripped. -/
def stripPrime (part : GoStr) : GoStr × Bool :=
  let prime := part.getLast? == some aposC
  (if prime then part.dropLast else part, prime)

/-- One iteration of the path loop in `DerivePrivateKeyForPath`: Go panics
(modelled as `none`) on an empty segment (out-of-range slice), a failing
`strconv.Atoi`, or a negative index; otherwise the index is converted with
`uint32(i)`, i.e. truncated modulo `2 ^ 32`. -/
def parsePart (part : GoStr) : Option (Nat × Bool) :=
  if part.isEmpty then none
  else
    match atoi (stripPrime part).1 with
    | none => none
    | some i => if i < 0 then none else some (i.toNat % 2 ^ 32, (stripPrime part).2)

/-- The fold of `DerivePrivateKey` over the parsed path segments. -/
def derivePathLoop (hmac : HmacFn) (pubOf : PubFn) :
    List GoStr → Bytes → Bytes → Option (Bytes × Bytes)
  | [], data, chainCode => some (data, chainCode)
  | part :: rest, data, chainCode =>
    match parsePart part with
    | none => none
    | some pr =>
      let s := DerivePrivateKey hmac pubOf data chainCode pr.1 pr.2
      derivePathLoop hmac pubOf rest s.1 s.2

/-- `DerivePrivateKeyForPath` from hdpath.go, with Go panics modelled as
`none`.  The final block copies the folded key into a `[32]byte` array and
panics unless exactly 32 bytes were present and copied. -/
def DerivePrivateKeyForPath (hmac : HmacFn) (pubOf : PubFn)
    (privKeyBytes chainCode : Bytes) (path : GoStr) : Option Bytes :=
  match derivePathLoop hmac pubOf (splitSlash path) privKeyBytes chainCode with
  | none => none
  | some dc =>
    if min 32 dc.1.length ≠ 32 ∨ dc.1.length ≠ 32 then none else some (copyTo32 dc.1)

/-- The derivation pipeline of the repository: masters from the seed, then
the path fold. -/
def deriveForPathFromSeed (hmac : HmacFn) (pubOf : PubFn) (seed : Bytes)
    (path : GoStr) : Option Bytes :=
  let mc := ComputeMastersFromSeed hmac seed
  DerivePrivateKeyForPath hmac pubOf mc.1 mc.2 path

/-- Specification-side child-derivation step, written from the words of the
claim: HMAC data as described, `(il, ir)` the two 32-byte halves of the HMAC
output, new secret the canonical 32-byte big-endian encoding of
`(parent + il) mod N`, new chain code `ir`. -/
def deriveChildSpec (hmac : HmacFn) (pubOf : PubFn) (secret chainCode : Bytes)
    (index : Nat) (hardened : Bool) : Bytes × Bytes :=
  let data :=
    if hardened then 0 :: secret ++ uint32ToBytes (index ||| 0x80000000)
    else pubOf secret ++ uint32ToBytes index
  let I := hmac chainCode data
  (beBytesN 32 ((fromBytesBE secret + fromBytesBE (I.take 32)) % secpN), I.drop 32)

/-! ### Keybase model

The keybase orchestrates the derivation engine, the armor layer and an
ordered byte-keyed store.  The armor layer and the store are external to the
files under verification; they are modelled from their documented contracts.
-/

/-- Language enumeration from keybase.go (only English is supported). -/
inductive Language where
  | English | Japanese | Korean | Spanish
  | ChineseSimplified | ChineseTraditional | French | Italian
deriving DecidableEq, Repr

/-- Signing-algorithm enumeration (`SigningAlgo` in the keys package). -/
inductive SigningAlgo where
  | Secp256k1 | Ed25519
deriving DecidableEq, Repr

/-- Modelled from the spec: the private-key armor string.  encryptArmor of a
secret under a passphrase yields an opaque armor; decryptArmor recovers the
secret exactly when the same passphrase is presented and fails closed
otherwise.  The empty armor string (watch-only records) is a distinguished
value.  The concrete armor implementation is not among the verified files. -/
inductive ArmorStr where
  | empty : ArmorStr
  | enc (priv : Bytes) (pass : GoStr) : ArmorStr
deriving DecidableEq, Repr

/-- `Info` from the keys package: the public information about a key. -/
structure Info where
  name : GoStr
  pubKey : Bytes
  privKeyArmor : ArmorStr
deriving DecidableEq, Repr

/-- The error kinds surfaced by keybase operations. -/
inductive KeyErr where
  | recordNotFound
  | decryptionFailed
  | malformedArmor
  | invalidPath
  | unsupportedLanguage
  | unsupportedAlgo
deriving DecidableEq, Repr

/-- Boolean success test for `Except`. -/
def exceptIsOk {ε α : Type} : Except ε α → Bool
  | Except.ok _ => true
  | Except.error _ => false

instance exceptDecEq {ε α : Type} [DecidableEq ε] [DecidableEq α] :
    DecidableEq (Except ε α)
  | Except.ok x, Except.ok y =>
    if h : x = y then isTrue (by rw [h])
    else isFalse (fun hc => h (Except.ok.inj hc))
  | Except.ok _, Except.error _ => isFalse (fun hc => Except.noConfusion hc)
  | Except.error _, Except.ok _ => isFalse (fun hc => Except.noConfusion hc)
  | Except.error e, Except.error f =>
    if h : e = f then isTrue (by rw [h])
    else isFalse (fun hc => h (Except.error.inj hc))

/-- Modelled from the spec: `encryptArmorPrivKey`. -/
def encryptArmorPrivKey (priv : Bytes) (pass : GoStr) : ArmorStr :=
  ArmorStr.enc priv pass

/-- Modelled from the spec: `unarmorDecryptPrivKey`.  Decryption with a wrong
passphrase fails closed with a decryption error; the empty armor (a
watch-only record has no private-key armor) fails as malformed. -/
def unarmorDecryptPrivKey : ArmorStr → GoStr → Except KeyErr Bytes
  | ArmorStr.empty, _ => Except.error KeyErr.malformedArmor
  | ArmorStr.enc priv pass, given =>
    if given = pass then Except.ok priv else Except.error KeyErr.decryptionFailed

/-- Byte-lexicographic strict order on byte lists. -/
def bytesLt : List Nat → List Nat → Bool
  | [], [] => false
  | [], _ :: _ => true
  | _ :: _, [] => false
  | a :: as, b :: bs => if a < b then true else if b < a then false else bytesLt as bs

/-- Go strings compare by their UTF-8 bytes; UTF-8 preserves code-point
order, so the comparison is code-point lexicographic. -/
def strLt (a b : GoStr) : Bool :=
  bytesLt (a.map Char.toNat) (b.map Char.toNat)

/-- Modelled from the spec: the ordered byte-keyed store, an association
list kept in ascending key order (the capability iterates in ascending key
order; values are the decoded records, the stable binary codec being
treated as the identity). -/
abbrev DB := List (GoStr × Info)

/-- Store lookup (`db.Get`): `none` for an absent key. -/
def dbGet : DB → GoStr → Option Info
  | [], _ => none
  | (k, v) :: rest, key => if key = k then some v else dbGet rest key

/-- Store write (`db.SetSync` / `db.Set`): replaces an existing entry,
otherwise inserts at the position given by the key order. -/
def dbSet : DB → GoStr → Info → DB
  | [], key, v => [(key, v)]
  | (k, w) :: rest, key, v =>
    if key = k then (key, v) :: rest
    else if strLt key k then (key, v) :: (k, w) :: rest
    else (k, w) :: dbSet rest key v

/-- Store delete (`db.DeleteSync`): the write is acknowledged in the
returned state. -/
def dbDelete : DB → GoStr → DB
  | [], _ => []
  | (k, w) :: rest, key => if key = k then rest else (k, w) :: dbDelete rest key

/-- `infoKey` from keybase.go: records are stored under `"<name>.info"`. -/
def infoKey (name : GoStr) : GoStr := name ++ gs ".info"

/-- `Get` from keybase.go: reads and decodes the record; a missing key makes
the decode fail (record not found). -/
def kbGet (db : DB) (name : GoStr) : Except KeyErr Info :=
  match dbGet db (infoKey name) with
  | none => Except.error KeyErr.recordNotFound
  | some info => Except.ok info

/-- `List` from keybase.go: iterates the store in ascending key order and
decodes every value. -/
def kbList (db : DB) : List Info := db.map Prod.snd

/-- `writePubKey` from keybase.go: stores a watch-only record (empty
private-key armor). -/
def writePubKey (db : DB) (pub : Bytes) (name : GoStr) : Info × DB :=
  let info : Info := ⟨name, pub, ArmorStr.empty⟩
  (info, dbSet db (infoKey name) info)

/-- `writePrivKey` from keybase.go: encrypts the private key under the
passphrase and stores the record. -/
def writePrivKey (pubOf : PubFn) (db : DB) (priv : Bytes) (name pass : GoStr) :
    Info × DB :=
  let info : Info := ⟨name, pubOf priv, encryptArmorPrivKey priv pass⟩
  (info, dbSet db (infoKey name) info)

/-- `Delete` from keybase.go: loads the record, requires a successful
decryption of its private-key armor, and only then deletes synchronously. -/
def kbDelete (db : DB) (name pass : GoStr) : Except KeyErr Unit × DB :=
  match kbGet db name with
  | Except.error e => (Except.error e, db)
  | Except.ok info =>
    match unarmorDecryptPrivKey info.privKeyArmor pass with
    | Except.error e => (Except.error e, db)
    | Except.ok _ => (Except.ok (), dbDelete db (infoKey name))

/-- `Update` from keybase.go: loads the record, decrypts the stored armor
with the old passphrase, and on success re-encrypts under the new passphrase
and overwrites the record. -/
def kbUpdate (pubOf : PubFn) (db : DB) (name oldpass newpass : GoStr) :
    Except KeyErr Unit × DB :=
  match kbGet db name with
  | Except.error e => (Except.error e, db)
  | Except.ok info =>
    match unarmorDecryptPrivKey info.privKeyArmor oldpass with
    | Except.error e => (Except.error e, db)
    | Except.ok key => (Except.ok (), (writePrivKey pubOf db key name newpass).2)

/-- Modelled from the spec: the fundraiser derivation path used by the
keybase.  The hd package version linked by keybase.go is not among the
verified files (keybase.go calls `hd.DerivePrivateKeyForPath` with an error
return the hdpath.go under verification does not have); the spec renders the
canonical fundraiser path as hardened 44 / 118 / 0 followed by 0 / 0, and
the repository tests require `CreateMnemonic` to derive successfully. -/
def kbFullFundraiserPath : GoStr :=
  gs "44" ++ [aposC] ++ gs "/118" ++ [aposC] ++ gs "/0" ++ [aposC] ++ gs "/0/0"

/-- `persistDerivedKey` from keybase.go: derives along the path, then with a
nonempty passphrase stores an encrypted record and with an empty passphrase
stores a watch-only (public-key-only) record. -/
def persistDerivedKey (hmac : HmacFn) (pubOf : PubFn) (db : DB) (seed : Bytes)
    (passwd name : GoStr) (fullHdPath : GoStr) : Except KeyErr Info × DB :=
  match deriveForPathFromSeed hmac pubOf seed fullHdPath with
  | none => (Except.error KeyErr.invalidPath, db)
  | some derivedPriv =>
    if passwd ≠ [] then
      let r := writePrivKey pubOf db derivedPriv name passwd
      (Except.ok r.1, r.2)
    else
      let r := writePubKey db (pubOf derivedPriv) name
      (Except.ok r.1, r.2)

/-- `CreateMnemonic` from keybase.go.  The fresh mnemonic generation and the
mnemonic-to-seed conversion are external capabilities; the seed obtained
from the freshly generated mnemonic is a parameter.  Note the source checks
the language and the algorithm but never whether `name` already has a
record. -/
def kbCreateMnemonic (hmac : HmacFn) (pubOf : PubFn) (db : DB) (name : GoStr)
    (language : Language) (passwd : GoStr) (algo : SigningAlgo) (seed : Bytes) :
    Except KeyErr Info × DB :=
  if language ≠ Language.English then (Except.error KeyErr.unsupportedLanguage, db)
  else if algo ≠ SigningAlgo.Secp256k1 then (Except.error KeyErr.unsupportedAlgo, db)
  else persistDerivedKey hmac pubOf db seed passwd name kbFullFundraiserPath

/-- `BIP44Params` from hdpath.go. -/
structure BIP44Params where
  purpose : Nat
  coinType : Nat
  account : Nat
  change : Bool
  addressIdx : Nat
deriving DecidableEq, Repr

/-- `BIP44Params.String` from hdpath.go: hardened purpose, coin type and
account followed by the change flag and the address index. -/
def bip44String (p : BIP44Params) : GoStr :=
  Nat.toDigits 10 p.purpose ++ [aposC] ++ ['/'] ++
  Nat.toDigits 10 p.coinType ++ [aposC] ++ ['/'] ++
  Nat.toDigits 10 p.account ++ [aposC] ++ ['/'] ++
  (if p.change then ['1'] else ['0']) ++ ['/'] ++
  Nat.toDigits 10 p.addressIdx

/-- `Derive` from keybase.go: the mnemonic-to-seed conversion is an external
capability, so the seed is a parameter; the record is persisted along the
rendered BIP44 path. -/
def kbDerive (hmac : HmacFn) (pubOf : PubFn) (db : DB) (name : GoStr)
    (seed : Bytes) (passwd : GoStr) (params : BIP44Params) :
    Except KeyErr Info × DB :=
  persistDerivedKey hmac pubOf db seed passwd name (bip44String params)

/-- Ascending key order of a store: adjacent keys strictly increasing. -/
def keysSortedAsc : List GoStr → Bool
  | [] => true
  | [_] => true
  | a :: b :: rest => strLt a b && keysSortedAsc (b :: rest)

/-- A store is well formed when its keys are in ascending order and every
record sits at the key formed from its own name. -/
def dbWellFormed (db : DB) : Bool :=
  keysSortedAsc (db.map Prod.fst) && db.all (fun e => e.1 == infoKey e.2.name)

/-- Records in ascending name order (the order the claim asserts). -/
def sortedByNameAsc : List Info → Bool
  | [] => true
  | [_] => true
  | a :: b :: rest => strLt a.name b.name && sortedByNameAsc (b :: rest)

/-- Duplicate-free key list of a store. -/
def keysNodupB : DB → Bool
  | [] => true
  | (k, _) :: rest => (!(rest.map Prod.fst).contains k) && keysNodupB rest

/-! ### Concrete inputs used by witnesses and counterexamples -/

/-- A concrete HMAC capability honouring the 64-byte output contract. -/
def wHmac : HmacFn := fun _ _ => List.replicate 64 7

/-- A concrete compressed-public-key capability (33-byte output). -/
def wPub : PubFn := fun _ => List.replicate 33 2

def wSec : Bytes := List.replicate 32 1

def wCc : Bytes := List.replicate 32 3

def wSeed : Bytes := [1, 2, 3, 4]

def wInfoAlice : Info :=
  ⟨gs "alice", List.replicate 33 2, ArmorStr.enc (List.replicate 32 1) (gs "pw")⟩

def wDb : DB := [(infoKey (gs "alice"), wInfoAlice)]

/-- Store after a first `CreateMnemonic` stored a record named alice. -/
def c3db1 : DB :=
  (kbCreateMnemonic wHmac wPub [] (gs "alice") Language.English (gs "pw1")
    SigningAlgo.Secp256k1 [1, 2, 3]).2

/-- Store holding records named a and then a-bang, written through the
keybase write path. -/
def c4db2 : DB :=
  (writePubKey (writePubKey [] [9] (gs "a")).2 [9] (gs "a!")).2

def wDbSorted : DB :=
  [(infoKey (gs "alice"), ⟨gs "alice", [1], ArmorStr.empty⟩),
    (infoKey (gs "bob"), ⟨gs "bob", [2], ArmorStr.empty⟩)]

/-! ### Helper lemmas on byte encodings -/

theorem copyTo32_length (src : Bytes) : (copyTo32 src).length = 32 := by
  simp only [copyTo32, List.length_append, List.length_replicate, List.length_take]
  omega

theorem copyTo32_of_length (src : Bytes) (h : src.length = 32) : copyTo32 src = src := by
  simp only [copyTo32, List.take_of_length_le (le_of_eq h), h]
  simp

theorem foldl_mulAdd (l : Bytes) (acc : Nat) :
    l.foldl (fun a b => a * 256 + b) acc =
      acc * 256 ^ l.length + l.foldl (fun a b => a * 256 + b) 0 := by
  induction l generalizing acc with
  | nil => simp
  | cons c t ih =>
    simp only [List.foldl_cons, List.length_cons]
    rw [ih (acc * 256 + c), ih (0 * 256 + c)]
    ring

theorem fromBytesBE_cons (c : Nat) (t : Bytes) :
    fromBytesBE (c :: t) = c * 256 ^ t.length + fromBytesBE t := by
  simp only [fromBytesBE, List.foldl_cons]
  simpa using foldl_mulAdd t c

theorem fromBytesBE_append_single (l : Bytes) (b : Nat) :
    fromBytesBE (l ++ [b]) = fromBytesBE l * 256 + b := by
  simp [fromBytesBE, List.foldl_append]

theorem fromBytesBE_lt (l : Bytes) (h : ∀ x ∈ l, x < 256) :
    fromBytesBE l < 256 ^ l.length := by
  induction l with
  | nil => simp [fromBytesBE]
  | cons c t ih =>
    rw [fromBytesBE_cons]
    have hc : c < 256 := h c (List.mem_cons_self c t)
    have ht : fromBytesBE t < 256 ^ t.length :=
      ih fun x hx => h x (List.mem_cons_of_mem c hx)
    calc c * 256 ^ t.length + fromBytesBE t
        < c * 256 ^ t.length + 256 ^ t.length := by omega
      _ = (c + 1) * 256 ^ t.length := by ring
      _ ≤ 256 * 256 ^ t.length := Nat.mul_le_mul_right _ (by omega)
      _ = 256 ^ (c :: t).length := by rw [List.length_cons]; ring

theorem fromBytesBE_replicate_zero (k : Nat) (l : Bytes) :
    fromBytesBE (List.replicate k 0 ++ l) = fromBytesBE l := by
  induction k with
  | zero => simp
  | succ k ih =>
    rw [List.replicate_succ, List.cons_append, fromBytesBE_cons, ih]
    simp

theorem natToBytesBEAux_value :
    ∀ fuel n, n < 256 ^ fuel → fromBytesBE (natToBytesBEAux fuel n) = n := by
  intro fuel
  induction fuel with
  | zero =>
    intro n hn
    interval_cases n
    simp [natToBytesBEAux, fromBytesBE]
  | succ fuel ih =>
    intro n hn
    by_cases h0 : n = 0
    · simp [natToBytesBEAux, h0, fromBytesBE]
    · rw [natToBytesBEAux]
      simp only [h0, if_false]
      rw [fromBytesBE_append_single, ih (n / 256) ?hlt]
      · omega
      · rw [Nat.div_lt_iff_lt_mul (by omega)]
        calc n < 256 ^ (fuel + 1) := hn
          _ = 256 ^ fuel * 256 := by rw [pow_succ]

theorem natToBytesBEAux_mem_lt :
    ∀ fuel n x, x ∈ natToBytesBEAux fuel n → x < 256 := by
  intro fuel
  induction fuel with
  | zero => intro n x hx; simp [natToBytesBEAux] at hx
  | succ fuel ih =>
    intro n x hx
    rw [natToBytesBEAux] at hx
    by_cases h0 : n = 0
    · simp [h0] at hx
    · simp only [h0, if_false, List.mem_append, List.mem_singleton] at hx
      rcases hx with hx | hx
      · exact ih _ _ hx
      · subst hx; exact Nat.mod_lt _ (by omega)

theorem natToBytesBEAux_length_le :
    ∀ fuel k n, n < 256 ^ k → (natToBytesBEAux fuel n).length ≤ k := by
  intro fuel
  induction fuel with
  | zero => intro k n _; simp [natToBytesBEAux]
  | succ fuel ih =>
    intro k n hn
    rw [natToBytesBEAux]
    by_cases h0 : n = 0
    · simp [h0]
    · simp only [h0, if_false, List.length_append, List.length_cons, List.length_nil]
      cases k with
      | zero => omega
      | succ k =>
        have : (natToBytesBEAux fuel (n / 256)).length ≤ k := by
          apply ih
          rw [Nat.div_lt_iff_lt_mul (by omega)]
          calc n < 256 ^ (k + 1) := hn
            _ = 256 ^ k * 256 := by rw [pow_succ]
        omega

theorem lt_base_pow (n : Nat) : n < 256 ^ n :=
  lt_of_lt_of_le (Nat.lt_two_pow n) (Nat.pow_le_pow_left (by omega) n)

theorem fromBytes_natToBytesBE (n : Nat) : fromBytesBE (natToBytesBE n) = n :=
  natToBytesBEAux_value n n (lt_base_pow n)

theorem natToBytesBE_mem_lt (n x : Nat) (hx : x ∈ natToBytesBE n) : x < 256 :=
  natToBytesBEAux_mem_lt n n x hx

theorem natToBytesBE_length_le (n k : Nat) (hn : n < 256 ^ k) :
    (natToBytesBE n).length ≤ k :=
  natToBytesBEAux_length_le n k n hn

theorem beBytesN_length (k n : Nat) : (beBytesN k n).length = k := by
  induction k generalizing n with
  | zero => simp [beBytesN]
  | succ k ih => simp [beBytesN, ih]

theorem beBytesN_mem_lt (k n x : Nat) (hx : x ∈ beBytesN k n) : x < 256 := by
  induction k generalizing n with
  | zero => simp [beBytesN] at hx
  | succ k ih =>
    simp only [beBytesN, List.mem_cons] at hx
    rcases hx with hx | hx
    · subst hx; exact Nat.mod_lt _ (by omega)
    · exact ih _ hx

theorem fromBytesBE_beBytesN (k n : Nat) :
    fromBytesBE (beBytesN k n) = n % 256 ^ k := by
  induction k generalizing n with
  | zero => simp [beBytesN, fromBytesBE, Nat.mod_one]
  | succ k ih =>
    rw [beBytesN, fromBytesBE_cons, beBytesN_length, ih, pow_succ, Nat.mod_mul]
    ring

theorem bytesBE_unique :
    ∀ (l1 l2 : Bytes), l1.length = l2.length → (∀ x ∈ l1, x < 256) →
      (∀ x ∈ l2, x < 256) → fromBytesBE l1 = fromBytesBE l2 → l1 = l2 := by
  intro l1
  induction l1 with
  | nil =>
    intro l2 hlen _ _ _
    cases l2 with
    | nil => rfl
    | cons b t => simp at hlen
  | cons a t1 ih =>
    intro l2 hlen h1 h2 hval
    cases l2 with
    | nil => simp at hlen
    | cons b t2 =>
      simp only [List.length_cons, Nat.succ.injEq] at hlen
      rw [fromBytesBE_cons, fromBytesBE_cons, hlen] at hval
      have hv1 : fromBytesBE t1 < 256 ^ t2.length := by
        rw [← hlen]
        exact fromBytesBE_lt t1 fun x hx => h1 x (List.mem_cons_of_mem a hx)
      have hv2 : fromBytesBE t2 < 256 ^ t2.length :=
        fromBytesBE_lt t2 fun x hx => h2 x (List.mem_cons_of_mem b hx)
      have hK : 0 < 256 ^ t2.length := pow_pos (by omega) _
      have hab : a = b := by
        have ha : (a * 256 ^ t2.length + fromBytesBE t1) / 256 ^ t2.length = a := by
          rw [mul_comm, Nat.mul_add_div hK, Nat.div_eq_of_lt hv1]
          omega
        have hb : (b * 256 ^ t2.length + fromBytesBE t2) / 256 ^ t2.length = b := by
          rw [mul_comm, Nat.mul_add_div hK, Nat.div_eq_of_lt hv2]
          omega
        rw [← ha, ← hb, hval]
      subst hab
      have ht : fromBytesBE t1 = fromBytesBE t2 := by omega
      rw [ih t2 hlen (fun x hx => h1 x (List.mem_cons_of_mem a hx))
        (fun x hx => h2 x (List.mem_cons_of_mem a hx)) ht]

theorem secpN_lt : secpN < 256 ^ 32 := by decide

theorem secpN_pos : 0 < secpN := by decide

theorem addScalars_eq (a b : Bytes) :
    addScalars a b = beBytesN 32 ((fromBytesBE a + fromBytesBE b) % secpN) := by
  have hmlt : (fromBytesBE a + fromBytesBE b) % secpN < 256 ^ 32 :=
    lt_of_lt_of_le (Nat.mod_lt _ secpN_pos) (le_of_lt secpN_lt)
  have hxlen : (natToBytesBE ((fromBytesBE a + fromBytesBE b) % secpN)).length ≤ 32 :=
    natToBytesBE_length_le _ 32 hmlt
  apply bytesBE_unique
  · simp only [addScalars, List.length_append, List.length_replicate, beBytesN_length]
    omega
  · intro x hx
    simp only [addScalars, List.mem_append, List.mem_replicate] at hx
    rcases hx with hx | hx
    · omega
    · exact natToBytesBE_mem_lt _ x hx
  · exact fun x hx => beBytesN_mem_lt 32 _ x hx
  · simp only [addScalars]
    rw [fromBytesBE_replicate_zero, fromBytes_natToBytesBE, fromBytesBE_beBytesN,
      Nat.mod_eq_of_lt hmlt]

theorem addScalars_length (a b : Bytes) : (addScalars a b).length = 32 := by
  rw [addScalars_eq, beBytesN_length]

/-! ### Helper lemmas on the hardened-bit OR -/

theorem lor_two_pow_of_lt {a n : Nat} (h : a < 2 ^ n) : a ||| 2 ^ n = 2 ^ n + a := by
  apply Nat.eq_of_testBit_eq
  intro j
  rcases Nat.lt_trichotomy j n with hj | hj | hj
  · rw [Nat.testBit_or, Nat.testBit_two_pow_add_gt hj,
      Nat.testBit_two_pow_of_ne (by omega), Bool.or_false]
  · subst hj
    rw [Nat.testBit_or, Nat.testBit_two_pow_add_eq, Nat.testBit_lt_two_pow h,
      Nat.testBit_two_pow_self]
    rfl
  · have h1 : a.testBit j = false :=
      Nat.testBit_lt_two_pow
        (lt_of_lt_of_le h (Nat.pow_le_pow_right (by omega) (le_of_lt hj)))
    have h3 : (2 ^ n + a).testBit j = false := by
      apply Nat.testBit_lt_two_pow
      calc 2 ^ n + a < 2 ^ n + 2 ^ n := by omega
        _ = 2 ^ (n + 1) := by ring
        _ ≤ 2 ^ j := Nat.pow_le_pow_right (by omega) (by omega)
    rw [Nat.testBit_or, h1, Nat.testBit_two_pow_of_ne (by omega), h3]
    rfl

theorem lor_high_idem {a n : Nat} (h : a < 2 ^ n) : (a + 2 ^ n) ||| 2 ^ n = a + 2 ^ n := by
  have h1 : a + 2 ^ n = a ||| 2 ^ n := by rw [lor_two_pow_of_lt h, Nat.add_comm]
  rw [h1, Nat.lor_assoc, Nat.or_self]

/-! ### Helper lemmas on the store -/

theorem dbGet_dbSet_self (db : DB) (k : GoStr) (v : Info) :
    dbGet (dbSet db k v) k = some v := by
  induction db with
  | nil => simp [dbSet, dbGet]
  | cons e rest ih =>
    obtain ⟨k0, w⟩ := e
    by_cases hk : k = k0
    · simp [dbSet, hk, dbGet]
    · by_cases hlt : strLt k k0
      · simp [dbSet, hk, hlt, dbGet]
      · simp [dbSet, hk, hlt, dbGet, ih]

theorem dbGet_none_of_not_contains (db : DB) (k : GoStr)
    (h : (db.map Prod.fst).contains k = false) : dbGet db k = none := by
  induction db with
  | nil => rfl
  | cons e rest ih =>
    obtain ⟨k0, w⟩ := e
    simp only [List.map_cons, List.contains_cons, Bool.or_eq_false_iff,
      beq_eq_false_iff_ne, ne_eq] at h
    simp only [dbGet]
    rw [if_neg h.1]
    exact ih h.2

theorem dbGet_dbDelete_self (db : DB) (k : GoStr) (h : keysNodupB db = true) :
    dbGet (dbDelete db k) k = none := by
  induction db with
  | nil => rfl
  | cons e rest ih =>
    obtain ⟨k0, w⟩ := e
    simp only [keysNodupB, Bool.and_eq_true, Bool.not_eq_true'] at h
    by_cases hk : k = k0
    · simp only [dbDelete, if_pos hk]
      apply dbGet_none_of_not_contains
      rw [hk]
      exact h.1
    · simp only [dbDelete, if_neg hk, dbGet, if_neg hk]
      exact ih h.2

/-! ### Claims -/

/-- C1: for every seed and every syntactically valid path, the derivation
pipeline (masters from seed, then the left-to-right path fold) is a pure
function of its inputs: two evaluations on identical inputs return
byte-identical 32-byte derived secrets. -/
theorem c1_derivation_deterministic (hmac : HmacFn) (pubOf : PubFn) (seed : Bytes)
    (path : GoStr) (out1 out2 : Bytes)
    (h1 : deriveForPathFromSeed hmac pubOf seed path = some out1)
    (h2 : deriveForPathFromSeed hmac pubOf seed path = some out2) :
    out1 = out2 ∧ out1.length = 32 := by
  refine ⟨Option.some.inj (h1.symm.trans h2), ?_⟩
  simp only [deriveForPathFromSeed, DerivePrivateKeyForPath] at h1
  split at h1
  · exact absurd h1 (by simp)
  · split at h1
    · exact absurd h1 (by simp)
    · rw [(Option.some.inj h1).symm, copyTo32_length]

theorem c1_derivation_deterministic_witness :
    deriveForPathFromSeed wHmac wPub wSeed (gs "44/0/1") =
        some ((deriveForPathFromSeed wHmac wPub wSeed (gs "44/0/1")).getD []) ∧
      ((deriveForPathFromSeed wHmac wPub wSeed (gs "44/0/1")).getD [] =
          (deriveForPathFromSeed wHmac wPub wSeed (gs "44/0/1")).getD [] ∧
        ((deriveForPathFromSeed wHmac wPub wSeed (gs "44/0/1")).getD []).length = 32) :=
  ⟨by decide,
    c1_derivation_deterministic wHmac wPub wSeed (gs "44/0/1") _ _ (by decide) (by decide)⟩

/-- C2: one derivation step builds the HMAC data as a zero byte, the parent
secret and the big-endian hardened index (hardened case) or the compressed
parent public key and the big-endian index (public case), splits the
HMAC-SHA512 of it under the parent chain code into two 32-byte halves
`(il, ir)`, and returns `(parent + il) mod N` as the new secret and `ir` as
the new chain code. -/
theorem c2_derive_child_refines (hmac : HmacFn) (pubOf : PubFn)
    (hlen : ∀ k d, (hmac k d).length = 64) (s cc : Bytes) (index : Nat) (prime : Bool) :
    DerivePrivateKey hmac pubOf s cc index prime =
      deriveChildSpec hmac pubOf s cc index prime := by
  have h1 : ∀ d, copyTo32 ((hmac cc d).take 32) = (hmac cc d).take 32 := fun d =>
    copyTo32_of_length _ (by rw [List.length_take, hlen]; decide)
  have h2 : ∀ d, copyTo32 ((hmac cc d).drop 32) = (hmac cc d).drop 32 := fun d =>
    copyTo32_of_length _ (by rw [List.length_drop, hlen])
  cases prime with
  | true =>
    simp [DerivePrivateKey, deriveChildSpec, i64, h1, h2, addScalars_eq,
      List.cons_append]
  | false =>
    simp [DerivePrivateKey, deriveChildSpec, i64, h1, h2, addScalars_eq]

theorem c2_derive_child_refines_witness :
    (∀ k d, (wHmac k d).length = 64) ∧
      DerivePrivateKey wHmac wPub wSec wCc 5 true =
        deriveChildSpec wHmac wPub wSec wCc 5 true :=
  ⟨fun _ _ => rfl, c2_derive_child_refines wHmac wPub (fun _ _ => rfl) wSec wCc 5 true⟩

/-- C5 counterexample: the claim says a path whose segment index exceeds
2^31 - 1 makes the derivation call fail, but the call on the path
2147483648 succeeds, using the index truncated to uint32 — with the
hardened bit set. -/
theorem c5_counterexample :
    (DerivePrivateKeyForPath wHmac wPub wSec wCc (gs "2147483648")).isSome = true ∧
      ((2147483648 : Int) > 2 ^ 31 - 1) ∧
      DerivePrivateKeyForPath wHmac wPub wSec wCc (gs "2147483648") =
        some (copyTo32 (DerivePrivateKey wHmac wPub wSec wCc (2 ^ 31) false).1) := by
  refine ⟨by decide, by decide, by decide⟩

/-- C5 (amended): a segment with a negative index makes the derivation call
fail (a Go panic, modelled as no result); a segment index greater than
2^31 - 1 that still parses as an int64 is not rejected — the segment is
accepted with the index truncated to uint32 (`index mod 2^32`), silently
wrapping into the hardened-bit range. -/
theorem c5_amended_segment (part part2 : GoStr) (prime : Bool) (i : Int)
    (hne : part.isEmpty = false)
    (hstrip : stripPrime part = (part2, prime)) (hatoi : atoi part2 = some i) :
    (i < 0 → parsePart part = none) ∧
    (0 ≤ i → parsePart part = some (i.toNat % 2 ^ 32, prime)) := by
  have hp : parsePart part =
      match atoi part2 with
      | none => none
      | some j => if j < 0 then none else some (j.toNat % 2 ^ 32, prime) := by
    simp only [parsePart, hne, Bool.false_eq_true, if_false, hstrip]
  rw [hp, hatoi]
  constructor
  · intro hi
    simp [hi]
  · intro hi
    have hn : ¬i < 0 := by omega
    simp [hn]

theorem c5_amended_segment_witness :
    (gs "-5").isEmpty = false ∧
      stripPrime (gs "-5") = (gs "-5", false) ∧
      atoi (gs "-5") = some (-5) ∧
      (((-5 : Int) < 0 → parsePart (gs "-5") = none) ∧
        (0 ≤ (-5 : Int) →
          parsePart (gs "-5") = some ((-5 : Int).toNat % 2 ^ 32, false))) :=
  ⟨by decide, by decide, by decide,
    c5_amended_segment (gs "-5") (gs "-5") false (-5) (by decide) (by decide) (by decide)⟩

/-- C6: `addScalars` returns exactly 32 bytes, equal to the canonical
big-endian encoding of `(int(a) + int(b)) mod N` for the secp256k1 curve
order `N`, left-padded with zero bytes to constant width. -/
theorem c6_add_scalars_canonical (a b : Bytes) (_ha : a.length ≤ 32) (_hb : b.length ≤ 32) :
    addScalars a b = beBytesN 32 ((fromBytesBE a + fromBytesBE b) % secpN) ∧
      (addScalars a b).length = 32 :=
  ⟨addScalars_eq a b, addScalars_length a b⟩

theorem c6_add_scalars_canonical_witness :
    ([1, 2, 3] : Bytes).length ≤ 32 ∧ ([255, 255] : Bytes).length ≤ 32 ∧
      (addScalars [1, 2, 3] [255, 255] =
          beBytesN 32 ((fromBytesBE [1, 2, 3] + fromBytesBE [255, 255]) % secpN) ∧
        (addScalars [1, 2, 3] [255, 255]).length = 32) :=
  ⟨by decide, by decide,
    c6_add_scalars_canonical [1, 2, 3] [255, 255] (by decide) (by decide)⟩

/-- C9: hardened derivation ORs the hardened bit into the index before the
HMAC data is built, so a hardened step at index `i < 2^31` and at index
`i + 2^31` produce identical output — hardened derivation is not injective
over the full uint32 index range. -/
theorem c9_hardened_index_wraps (hmac : HmacFn) (pubOf : PubFn) (s cc : Bytes)
    (i : Nat) (h : i < 2 ^ 31) :
    DerivePrivateKey hmac pubOf s cc i true =
      DerivePrivateKey hmac pubOf s cc (i + 2 ^ 31) true := by
  have h80 : (0x80000000 : Nat) = 2 ^ 31 := by norm_num
  have hx : i ||| 0x80000000 = (i + 2 ^ 31) ||| 0x80000000 := by
    rw [h80, lor_high_idem h, lor_two_pow_of_lt h]
    omega
  simp [DerivePrivateKey, hx]

theorem c9_hardened_index_wraps_witness :
    5 < 2 ^ 31 ∧
      DerivePrivateKey wHmac wPub wSec wCc 5 true =
        DerivePrivateKey wHmac wPub wSec wCc (5 + 2 ^ 31) true :=
  ⟨by decide, c9_hardened_index_wraps wHmac wPub wSec wCc 5 (by decide)⟩

/-- C3: contrary to its own documentation ("returns an error ... if another
key is already stored under the same name"), `CreateMnemonic` performs no
existence check: a second call under an already-used name succeeds and
overwrites the previously stored record. -/
theorem c3_create_overwrites :
    dbGet c3db1 (infoKey (gs "alice")) ≠ none ∧
      exceptIsOk (kbCreateMnemonic wHmac wPub c3db1 (gs "alice") Language.English
          (gs "pw2") SigningAlgo.Secp256k1 [9, 9]).1 = true ∧
      dbGet (kbCreateMnemonic wHmac wPub c3db1 (gs "alice") Language.English
            (gs "pw2") SigningAlgo.Secp256k1 [9, 9]).2 (infoKey (gs "alice")) ≠
        dbGet c3db1 (infoKey (gs "alice")) := by
  refine ⟨by decide, by decide, by decide⟩

/-- C4 counterexample: with records created under the names a and a-bang,
`List` (which iterates the store in ascending order of the key
`name + ".info"`) returns the record named a-bang first, although a comes
first in ascending name order — so the output is not sorted by name. -/
theorem c4_counterexample :
    (kbList c4db2).map Info.name = [gs "a!", gs "a"] ∧
      strLt (gs "a") (gs "a!") = true ∧
      sortedByNameAsc (kbList c4db2) = false := by
  refine ⟨by decide, by decide, by decide⟩

theorem mapKeys_of_all (db : DB)
    (hall : db.all (fun e => e.1 == infoKey e.2.name) = true) :
    db.map (fun e => infoKey e.2.name) = db.map Prod.fst := by
  induction db with
  | nil => rfl
  | cons e rest ih =>
    simp only [List.all_cons, Bool.and_eq_true, beq_iff_eq] at hall
    simp only [List.map_cons, ih hall.2, hall.1]

/-- C4 (amended): for every well-formed store (keys ascending, every record
stored under the key formed from its own name), `List` returns every stored
record exactly once, in ascending byte-lexicographic order of the store key
`name + ".info"` — which is name order for names such as alice and bob, but
not for every pair of names. -/
theorem c4_amended_list_sorted_by_key (db : DB) (hwf : dbWellFormed db = true) :
    (kbList db).map (fun i => infoKey i.name) = db.map Prod.fst ∧
      keysSortedAsc (db.map Prod.fst) = true := by
  simp only [dbWellFormed, Bool.and_eq_true] at hwf
  obtain ⟨hs, ha⟩ := hwf
  refine ⟨?_, hs⟩
  simp only [kbList, List.map_map]
  exact mapKeys_of_all db ha

theorem c4_amended_list_sorted_by_key_witness :
    dbWellFormed wDbSorted = true ∧
      ((kbList wDbSorted).map (fun i => infoKey i.name) = wDbSorted.map Prod.fst ∧
        keysSortedAsc (wDbSorted.map Prod.fst) = true) :=
  ⟨by decide, c4_amended_list_sorted_by_key wDbSorted (by decide)⟩

/-- C7: `Delete` fails with the decryption error unless the supplied
passphrase decrypts the stored private-key armor; on failure the store is
unchanged and the record is still retrievable by `Get`; only on successful
decryption is the record removed, by a synchronous delete. -/
theorem c7_delete_requires_decryption (db : DB) (name pass : GoStr) (info : Info)
    (hnd : keysNodupB db = true) (hget : kbGet db name = Except.ok info) :
    (kbDelete db name pass).1 =
        Except.map (fun _ => ()) (unarmorDecryptPrivKey info.privKeyArmor pass) ∧
      (exceptIsOk (unarmorDecryptPrivKey info.privKeyArmor pass) = false →
        (kbDelete db name pass).2 = db ∧
          kbGet (kbDelete db name pass).2 name = Except.ok info) ∧
      (exceptIsOk (unarmorDecryptPrivKey info.privKeyArmor pass) = true →
        dbGet (kbDelete db name pass).2 (infoKey name) = none) := by
  simp only [kbDelete, hget]
  cases hdec : unarmorDecryptPrivKey info.privKeyArmor pass with
  | error e =>
    refine ⟨rfl, fun _ => ⟨rfl, hget⟩, fun hok => ?_⟩
    simp [exceptIsOk] at hok
  | ok key =>
    refine ⟨rfl, fun hok => ?_, fun _ => dbGet_dbDelete_self db (infoKey name) hnd⟩
    simp [exceptIsOk] at hok

theorem c7_delete_requires_decryption_witness :
    keysNodupB wDb = true ∧
      kbGet wDb (gs "alice") = Except.ok wInfoAlice ∧
      ((kbDelete wDb (gs "alice") (gs "wrong")).1 =
          Except.map (fun _ => ())
            (unarmorDecryptPrivKey wInfoAlice.privKeyArmor (gs "wrong")) ∧
        (exceptIsOk (unarmorDecryptPrivKey wInfoAlice.privKeyArmor (gs "wrong")) = false →
          (kbDelete wDb (gs "alice") (gs "wrong")).2 = wDb ∧
            kbGet (kbDelete wDb (gs "alice") (gs "wrong")).2 (gs "alice") =
              Except.ok wInfoAlice) ∧
        (exceptIsOk (unarmorDecryptPrivKey wInfoAlice.privKeyArmor (gs "wrong")) = true →
          dbGet (kbDelete wDb (gs "alice") (gs "wrong")).2 (infoKey (gs "alice")) =
            none)) :=
  ⟨by decide, by decide,
    c7_delete_requires_decryption wDb (gs "alice") (gs "wrong") wInfoAlice
      (by decide) (by decide)⟩

/-- C8: `Update` fails and leaves the store unchanged unless the old
passphrase decrypts the stored armor; on success it overwrites the record
with the private key re-encrypted under the new passphrase while the name
and public-key fields keep their previous values. -/
theorem c8_update_frame (pubOf : PubFn) (db : DB) (name oldpass newpass : GoStr)
    (info : Info) (key : Bytes)
    (hget : kbGet db name = Except.ok info)
    (hname : info.name = name) (hpub : info.pubKey = pubOf key) :
    (exceptIsOk (unarmorDecryptPrivKey info.privKeyArmor oldpass) = false →
      kbUpdate pubOf db name oldpass newpass =
        (Except.map (fun _ => ()) (unarmorDecryptPrivKey info.privKeyArmor oldpass), db)) ∧
    (unarmorDecryptPrivKey info.privKeyArmor oldpass = Except.ok key →
      kbUpdate pubOf db name oldpass newpass =
          (Except.ok (), dbSet db (infoKey name)
            ⟨info.name, info.pubKey, ArmorStr.enc key newpass⟩) ∧
        kbGet (kbUpdate pubOf db name oldpass newpass).2 name =
          Except.ok ⟨info.name, info.pubKey, ArmorStr.enc key newpass⟩) := by
  simp only [kbUpdate, hget]
  cases hdec : unarmorDecryptPrivKey info.privKeyArmor oldpass with
  | error e =>
    refine ⟨fun _ => rfl, fun hok => ?_⟩
    exact absurd hok (by simp)
  | ok k2 =>
    refine ⟨fun hok => ?_, fun hok => ?_⟩
    · simp [exceptIsOk] at hok
    · have hk : k2 = key := Except.ok.inj hok
      subst hk
      simp [writePrivKey, encryptArmorPrivKey, kbGet, hname, hpub, dbGet_dbSet_self]

theorem c8_update_frame_witness :
    kbGet wDb (gs "alice") = Except.ok wInfoAlice ∧
      wInfoAlice.name = gs "alice" ∧
      wInfoAlice.pubKey = wPub (List.replicate 32 1) ∧
      ((exceptIsOk (unarmorDecryptPrivKey wInfoAlice.privKeyArmor (gs "pw")) = false →
        kbUpdate wPub wDb (gs "alice") (gs "pw") (gs "new") =
          (Except.map (fun _ => ())
            (unarmorDecryptPrivKey wInfoAlice.privKeyArmor (gs "pw")), wDb)) ∧
      (unarmorDecryptPrivKey wInfoAlice.privKeyArmor (gs "pw") =
          Except.ok (List.replicate 32 1) →
        kbUpdate wPub wDb (gs "alice") (gs "pw") (gs "new") =
            (Except.ok (), dbSet wDb (infoKey (gs "alice"))
              ⟨wInfoAlice.name, wInfoAlice.pubKey,
                ArmorStr.enc (List.replicate 32 1) (gs "new")⟩) ∧
          kbGet (kbUpdate wPub wDb (gs "alice") (gs "pw") (gs "new")).2 (gs "alice") =
            Except.ok ⟨wInfoAlice.name, wInfoAlice.pubKey,
              ArmorStr.enc (List.replicate 32 1) (gs "new")⟩)) :=
  ⟨by decide, by decide, by decide,
    c8_update_frame wPub wDb (gs "alice") (gs "pw") (gs "new") wInfoAlice
      (List.replicate 32 1) (by decide) (by decide) (by decide)⟩

/-- C10: whenever the passphrase supplied to key creation is empty, the
persisted record is watch-only — empty private-key armor, holding only the
derived public key — both for `CreateMnemonic` and for `Derive`, which
persist through the same helper branching on the empty passphrase. -/
theorem c10_empty_passphrase_watch_only (hmac : HmacFn) (pubOf : PubFn)
    (db db2 : DB) (name : GoStr) (seed : Bytes) (params : BIP44Params)
    (dk dkP : Bytes)
    (hder : deriveForPathFromSeed hmac pubOf seed kbFullFundraiserPath = some dk)
    (hderP : deriveForPathFromSeed hmac pubOf seed (bip44String params) = some dkP) :
    kbCreateMnemonic hmac pubOf db name Language.English [] SigningAlgo.Secp256k1 seed =
        (Except.ok ⟨name, pubOf dk, ArmorStr.empty⟩,
          dbSet db (infoKey name) ⟨name, pubOf dk, ArmorStr.empty⟩) ∧
      kbDerive hmac pubOf db2 name seed [] params =
        (Except.ok ⟨name, pubOf dkP, ArmorStr.empty⟩,
          dbSet db2 (infoKey name) ⟨name, pubOf dkP, ArmorStr.empty⟩) := by
  constructor
  · simp [kbCreateMnemonic, persistDerivedKey, hder, writePubKey]
  · simp [kbDerive, persistDerivedKey, hderP, writePubKey]

theorem c10_empty_passphrase_watch_only_witness :
    deriveForPathFromSeed wHmac wPub wSeed kbFullFundraiserPath =
        some ((deriveForPathFromSeed wHmac wPub wSeed kbFullFundraiserPath).getD []) ∧
      deriveForPathFromSeed wHmac wPub wSeed (bip44String ⟨44, 118, 0, false, 0⟩) =
        some ((deriveForPathFromSeed wHmac wPub wSeed
          (bip44String ⟨44, 118, 0, false, 0⟩)).getD []) ∧
      (kbCreateMnemonic wHmac wPub [] (gs "carol") Language.English []
            SigningAlgo.Secp256k1 wSeed =
          (Except.ok ⟨gs "carol",
              wPub ((deriveForPathFromSeed wHmac wPub wSeed kbFullFundraiserPath).getD []),
              ArmorStr.empty⟩,
            dbSet [] (infoKey (gs "carol")) ⟨gs "carol",
              wPub ((deriveForPathFromSeed wHmac wPub wSeed kbFullFundraiserPath).getD []),
              ArmorStr.empty⟩) ∧
        kbDerive wHmac wPub [] (gs "carol") wSeed [] ⟨44, 118, 0, false, 0⟩ =
          (Except.ok ⟨gs "carol",
              wPub ((deriveForPathFromSeed wHmac wPub wSeed
                (bip44String ⟨44, 118, 0, false, 0⟩)).getD []),
              ArmorStr.empty⟩,
            dbSet [] (infoKey (gs "carol")) ⟨gs "carol",
              wPub ((deriveForPathFromSeed wHmac wPub wSeed
                (bip44String ⟨44, 118, 0, false, 0⟩)).getD []),
              ArmorStr.empty⟩)) :=
  ⟨by decide, by decide,
    c10_empty_passphrase_watch_only wHmac wPub [] [] (gs "carol") wSeed
      ⟨44, 118, 0, false, 0⟩ _ _ (by decide) (by decide)⟩

end GoCrypto
